import Mathlib

/-!
Verification of the transcript cleanup and assembly pipeline of
`server/scripts/transcribe_audio.py` (the post-recognition part of
`transcribe_audio`): the per-segment loop (quality filter, repetition
detector, punctuation-aware joining), the punctuation normalizer (three
ordered regex rewrites) and the greedy phrase deduplicator.

Text is modelled as `List Char`; Python float timestamps and the
similarity ratio are modelled as exact rationals.  All recursions are
structural so that every definition evaluates by `decide` on concrete
input.
-/

/-! ## Character classes -/

/-- The whitespace characters of the regex class used by the script
(the ASCII part of Python's class). -/
def wsChars : List Char := [' ', '\t', '\n', '\r', '\x0b', '\x0c']

def isSpace (c : Char) : Bool := decide (c ∈ wsChars)

/-- The punctuation class `[.,!?;:،؛]` of the normalizer regexes. -/
def punctN : List Char := ['.', ',', '!', '?', ';', ':', '،', '؛']

def isPunctN (c : Char) : Bool := decide (c ∈ punctN)

/-- The punctuation string `'.،,!?؛'` of the segment joining rule. -/
def spacingPunct : List Char := ['.', '،', ',', '!', '?', '؛']

/-! ## Basic string operations (`strip`, `split`, `' '.join`) -/

def trimL (l : List Char) : List Char := l.dropWhile isSpace

def trimR : List Char → List Char
  | [] => []
  | c :: cs =>
    match trimR cs with
    | [] => if isSpace c then [] else [c]
    | d :: r => c :: d :: r

/-- Python `str.strip()`. -/
def stripWs (l : List Char) : List Char := trimR (trimL l)

def splitAux : List Char → List Char → List (List Char)
  | cur, [] => if cur.isEmpty then [] else [cur.reverse]
  | cur, c :: cs =>
    if isSpace c then
      (if cur.isEmpty then splitAux [] cs else cur.reverse :: splitAux [] cs)
    else splitAux (c :: cur) cs

/-- Python `str.split()` with no argument: split on whitespace runs,
dropping empty pieces. -/
def splitWs (l : List Char) : List (List Char) := splitAux [] l

/-- Python `' '.join(ws)`. -/
def sjoin : List (List Char) → List Char
  | [] => []
  | [w] => w
  | w :: x :: ws => w ++ ' ' :: sjoin (x :: ws)

def str (s : String) : List Char := s.data

/-! ## Token sets and Jaccard similarity (lines 277-281) -/

def lowerStr (t : List Char) : List Char := t.map Char.toLower

/-- `set(t.lower().split())`, as a duplicate-free list. -/
def tokenSet (t : List Char) : List (List Char) := (splitWs (lowerStr t)).dedup

/-- `len(A & B)` for duplicate-free lists. -/
def interLen (A B : List (List Char)) : Nat :=
  (A.filter (fun w => decide (w ∈ B))).length

/-- `len(A | B)` for duplicate-free lists. -/
def unionLen (A B : List (List Char)) : Nat :=
  (A ++ B.filter (fun w => decide (w ∉ A))).length

/-- `len(last_words & current_words) / len(last_words | current_words)`
on the two lowercase token sets. -/
def similarity (a b : List Char) : ℚ :=
  (interLen (tokenSet a) (tokenSet b) : ℚ) / (unionLen (tokenSet a) (tokenSet b) : ℚ)

/-! ## Pipeline state and the per-segment loop body (lines 262-303) -/

structure Seg where
  text : List Char
  startT : ℚ
  endT : ℚ
  deriving DecidableEq

structure PState where
  fullText : List Char
  segsList : List Seg
  segCount : Nat
  lastText : List Char
  repCount : Nat
  deriving DecidableEq

def initState : PState :=
  { fullText := [], segsList := [], segCount := 0, lastText := [], repCount := 0 }

inductive Outcome where
  | qualityReject
  | nearDup
  | exactDup
  | accept
  deriving DecidableEq

/-- Python `full_text[-k:]` for `k > 0` (the only way the script calls it:
`k = 3 * len(segment_text)` with the text non-empty). -/
def takeLast (k : Nat) (l : List Char) : List Char := l.drop (l.length - k)

/-- Lines 275-281: `last_segment_text` truthy, both lowercase token sets
non-empty and the Jaccard ratio above `0.7`.  The ratio test
`|∩| / |∪| > 7/10` is written in its exact cross-multiplied form
`10 |∩| > 7 |∪|` so that it evaluates; `similarity_gt_iff` below proves
it equal to the rational statement. -/
def nearDupCond (last t : List Char) : Bool :=
  !last.isEmpty && !(tokenSet last).isEmpty && !(tokenSet t).isEmpty &&
    decide (10 * interLen (tokenSet last) (tokenSet t) >
      7 * unionLen (tokenSet last) (tokenSet t))

/-- Line 287: `segment_text in full_text[-len(segment_text)*3:]`. -/
def exactDupCond (full t : List Char) : Bool :=
  decide (t <:+: takeLast (3 * t.length) full)

/-- The decision the loop body takes for one (already stripped) segment
text: the quality tests of lines 266-271, then the near-duplicate test,
then the exact-substring test, else acceptance. -/
def classify (st : PState) (t : List Char) : Outcome :=
  if t.isEmpty || t.length < 2 then .qualityReject
  else if t.dedup.length < 3 then .qualityReject
  else if nearDupCond st.lastText t then .nearDup
  else if exactDupCond st.fullText t then .exactDup
  else .accept

def firstIsPunct : List Char → Bool
  | [] => false
  | c :: _ => decide (c ∈ spacingPunct)

/-- Lines 292-296: append a segment text to `full_text`, inserting one
space unless the buffer is empty or the text starts with punctuation. -/
def appendText (full t : List Char) : List Char :=
  if !full.isEmpty && !firstIsPunct t then full ++ ' ' :: t else full ++ t

/-- One iteration of the segment loop (lines 262-303). -/
def stepSeg (st : PState) (s : Seg) : PState :=
  let t := stripWs s.text
  match classify st t with
  | .qualityReject => st
  | .nearDup => { st with repCount := st.repCount + 1 }
  | .exactDup => { st with repCount := st.repCount + 1 }
  | .accept =>
    { fullText := appendText st.fullText t,
      segsList := st.segsList ++ [{ text := t, startT := s.startT, endT := s.endT }],
      segCount := st.segCount + 1,
      lastText := t,
      repCount := st.repCount }

def runState (inp : List Seg) : PState := inp.foldl stepSeg initState

/-- `runningText` as the spaced concatenation of the accepted texts. -/
def assemble (ts : List (List Char)) : List Char := ts.foldl appendText []

/-! ## Punctuation normalizer (lines 306-308) -/

def nextIsSpace : List Char → Bool
  | [] => false
  | d :: _ => isSpace d

/-- Rule 1a, the regex part of line 306: each maximal whitespace run
becomes a single `' '` (the run's last character turns into `' '`, the
others drop). -/
def collapseWs : List Char → List Char
  | [] => []
  | c :: cs =>
    if isSpace c then
      (if nextIsSpace cs then collapseWs cs else ' ' :: collapseWs cs)
    else c :: collapseWs cs

def headPunctAfterWs (l : List Char) : Bool :=
  match l.dropWhile isSpace with
  | [] => false
  | p :: _ => isPunctN p

/-- Line 307, regex `\s+([.,!?;:،؛]) -> \1`: a whitespace character
drops exactly when the first non-whitespace character after it is
punctuation. -/
def ruleB : List Char → List Char
  | [] => []
  | c :: cs => if isSpace c && headPunctAfterWs cs then ruleB cs else c :: ruleB cs

/-- Line 308, regex `([.,!?;:،؛])([^\s]) -> \1 \2` with the usual
left-to-right non-overlapping scan: on a match both characters are
consumed, so the second one is not reconsidered as a pattern start. -/
def ruleC : List Char → List Char
  | [] => []
  | [c] => [c]
  | c :: d :: cs =>
    if isPunctN c && !isSpace d then c :: ' ' :: d :: ruleC cs
    else c :: ruleC (d :: cs)

/-- The full normalizer of lines 306-308: collapse and strip
whitespace, drop whitespace before punctuation, put a space after
punctuation not followed by whitespace. -/
def pnorm (l : List Char) : List Char := ruleC (ruleB (stripWs (collapseWs l)))

/-! ## Shape predicates used by the normalizer proofs -/

def headNonSpace : List Char → Bool
  | [] => false
  | d :: _ => !isSpace d

def headNSP : List Char → Bool
  | [] => false
  | d :: _ => !isSpace d && !isPunctN d

def okA : List Char → Bool
  | [] => true
  | c :: cs => (!isSpace c || (c == ' ' && !nextIsSpace cs)) && okA cs

def okB : List Char → Bool
  | [] => true
  | c :: cs => (!isSpace c || (c == ' ' && headNonSpace cs)) && okB cs

def goodB : List Char → Bool
  | [] => true
  | c :: cs => (!isSpace c || (c == ' ' && headNSP cs)) && goodB cs

def noLeadSpace : List Char → Bool
  | [] => true
  | c :: _ => !isSpace c

def noTrailSpace : List Char → Bool
  | [] => true
  | [c] => !isSpace c
  | _ :: d :: r => noTrailSpace (d :: r)

/-! ## Phrase deduplicator (lines 311-332) -/

/-- The match test of lines 318-321 at the current position for phrase
length `L`: at least `2 L` words remain and the two joined slices agree. -/
def tryLen (ws : List (List Char)) (L : Nat) : Bool :=
  decide (2 * L ≤ ws.length) && decide (sjoin (ws.take L) = sjoin ((ws.drop L).take L))

/-- The scan of lines 313-331, with explicit fuel (one unit per loop
iteration; the loop always advances, so `ws.length` units suffice). -/
def pdGo : Nat → List (List Char) → List (List Char)
  | _, [] => []
  | 0, ws => ws
  | fuel + 1, w :: rest =>
    if tryLen (w :: rest) 5 then (w :: rest).take 5 ++ pdGo fuel ((w :: rest).drop 10)
    else if tryLen (w :: rest) 4 then (w :: rest).take 4 ++ pdGo fuel ((w :: rest).drop 8)
    else if tryLen (w :: rest) 3 then (w :: rest).take 3 ++ pdGo fuel ((w :: rest).drop 6)
    else if tryLen (w :: rest) 2 then (w :: rest).take 2 ++ pdGo fuel ((w :: rest).drop 4)
    else w :: pdGo fuel rest

def phraseDedup (ws : List (List Char)) : List (List Char) := pdGo ws.length ws

/-- The match test as the design text states it: direct equality of the
two word slices. -/
def tryLenSpec (ws : List (List Char)) (L : Nat) : Bool :=
  decide (2 * L ≤ ws.length) && decide (ws.take L = (ws.drop L).take L)

/-- The deduplication scan as the design text states it, with the slice
comparison of `tryLenSpec`. -/
def pdGoSpec : Nat → List (List Char) → List (List Char)
  | _, [] => []
  | 0, ws => ws
  | fuel + 1, w :: rest =>
    if tryLenSpec (w :: rest) 5 then (w :: rest).take 5 ++ pdGoSpec fuel ((w :: rest).drop 10)
    else if tryLenSpec (w :: rest) 4 then (w :: rest).take 4 ++ pdGoSpec fuel ((w :: rest).drop 8)
    else if tryLenSpec (w :: rest) 3 then (w :: rest).take 3 ++ pdGoSpec fuel ((w :: rest).drop 6)
    else if tryLenSpec (w :: rest) 2 then (w :: rest).take 2 ++ pdGoSpec fuel ((w :: rest).drop 4)
    else w :: pdGoSpec fuel rest

def phraseDedupSpec (ws : List (List Char)) : List (List Char) := pdGoSpec ws.length ws

/-! ## Final result (lines 332-346, success path) -/

structure TResult where
  success : Bool
  transcript : List Char
  wordCount : Nat
  characterCount : Nat
  segments : List Seg
  error : Option (List Char)
  deriving DecidableEq

def finalize (st : PState) : TResult :=
  let finText := sjoin (phraseDedup (splitWs (pnorm st.fullText)))
  { success := true,
    transcript := finText,
    wordCount := (splitWs finText).length,
    characterCount := finText.length,
    segments := st.segsList,
    error := none }

def runPipeline (inp : List Seg) : TResult := finalize (runState inp)

/-! ## Helper lemmas on the segment loop -/

theorem stepSeg_of_reject (st : PState) (s : Seg)
    (h : classify st (stripWs s.text) = .nearDup ∨ classify st (stripWs s.text) = .exactDup) :
    stepSeg st s = { st with repCount := st.repCount + 1 } := by
  rcases h with h | h <;> simp [stepSeg, h]

theorem stepSeg_of_quality (st : PState) (s : Seg)
    (h : classify st (stripWs s.text) = .qualityReject) :
    stepSeg st s = st := by
  simp [stepSeg, h]

theorem classify_quality_iff (st : PState) (t : List Char) :
    classify st t = .qualityReject ↔ (t.length < 2 ∨ t.dedup.length < 3) := by
  have hlen : (t.isEmpty || t.length < 2 : Bool) = true ↔ t.length < 2 := by
    cases t <;> simp
  unfold classify
  split_ifs with h1 h2 h3 h4
  · exact iff_of_true rfl (Or.inl (hlen.mp h1))
  · exact iff_of_true rfl (Or.inr h2)
  · exact iff_of_false (by simp) (by rintro (h | h); exacts [h1 (hlen.mpr h), h2 h])
  · exact iff_of_false (by simp) (by rintro (h | h); exacts [h1 (hlen.mpr h), h2 h])
  · exact iff_of_false (by simp) (by rintro (h | h); exacts [h1 (hlen.mpr h), h2 h])

theorem stepSeg_fullText_assemble (st : PState) (s : Seg)
    (h : st.fullText = assemble (st.segsList.map Seg.text)) :
    (stepSeg st s).fullText = assemble ((stepSeg st s).segsList.map Seg.text) := by
  unfold stepSeg
  cases hc : classify st (stripWs s.text) <;> simp [hc, h, assemble, List.foldl_append]

theorem runState_fullText_assemble (inp : List Seg) :
    (runState inp).fullText = assemble ((runState inp).segsList.map Seg.text) := by
  suffices h : ∀ (l : List Seg) (st : PState),
      st.fullText = assemble (st.segsList.map Seg.text) →
      (l.foldl stepSeg st).fullText = assemble ((l.foldl stepSeg st).segsList.map Seg.text) by
    exact h inp initState rfl
  intro l
  induction l with
  | nil => intro st h; exact h
  | cons s l ih => intro st h; exact ih (stepSeg st s) (stepSeg_fullText_assemble st s h)

theorem stepSeg_segsList_le (st : PState) (s : Seg) :
    st.segsList.length ≤ (stepSeg st s).segsList.length := by
  unfold stepSeg
  cases hc : classify st (stripWs s.text) <;> simp [hc]

theorem runState_append (inp : List Seg) (s : Seg) :
    runState (inp ++ [s]) = stepSeg (runState inp) s := by
  simp [runState, List.foldl_append]

/-! ## Claim theorems: frame, invariant, counts -/

/-- C6: when the repetition detector rejects a candidate (near or exact
duplicate), the only state change is the skip counter going up by one:
the accepted segments, the running text, the last accepted text and the
accepted count all stay as they were. -/
theorem repetition_reject_frame (st : PState) (s : Seg)
    (h : classify st (stripWs s.text) = .nearDup ∨ classify st (stripWs s.text) = .exactDup) :
    (stepSeg st s).segsList = st.segsList ∧
    (stepSeg st s).fullText = st.fullText ∧
    (stepSeg st s).lastText = st.lastText ∧
    (stepSeg st s).segCount = st.segCount ∧
    (stepSeg st s).repCount = st.repCount + 1 := by
  rw [stepSeg_of_reject st s h]
  exact ⟨rfl, rfl, rfl, rfl, rfl⟩

theorem repetition_reject_frame_witness :
    (stepSeg (runState [⟨str "hello world", 0, 1⟩]) ⟨str "hello world", 1, 2⟩).segsList =
        (runState [⟨str "hello world", 0, 1⟩]).segsList ∧
    (stepSeg (runState [⟨str "hello world", 0, 1⟩]) ⟨str "hello world", 1, 2⟩).fullText =
        (runState [⟨str "hello world", 0, 1⟩]).fullText ∧
    (stepSeg (runState [⟨str "hello world", 0, 1⟩]) ⟨str "hello world", 1, 2⟩).lastText =
        (runState [⟨str "hello world", 0, 1⟩]).lastText ∧
    (stepSeg (runState [⟨str "hello world", 0, 1⟩]) ⟨str "hello world", 1, 2⟩).segCount =
        (runState [⟨str "hello world", 0, 1⟩]).segCount ∧
    (stepSeg (runState [⟨str "hello world", 0, 1⟩]) ⟨str "hello world", 1, 2⟩).repCount =
        (runState [⟨str "hello world", 0, 1⟩]).repCount + 1 :=
  repetition_reject_frame (runState [⟨str "hello world", 0, 1⟩])
    ⟨str "hello world", 1, 2⟩ (Or.inl (by decide))

/-- C5: after any processed stream the running text is exactly the
punctuation-aware spaced concatenation of the accepted segments' texts
in arrival order, and processing one more segment never shrinks the
accepted list. -/
theorem assembler_invariant :
    (∀ inp : List Seg,
      (runState inp).fullText = assemble ((runState inp).segsList.map Seg.text)) ∧
    (∀ (inp : List Seg) (s : Seg),
      (runState inp).segsList.length ≤ (runState (inp ++ [s])).segsList.length) := by
  refine ⟨runState_fullText_assemble, fun inp s => ?_⟩
  rw [runState_append]
  exact stepSeg_segsList_le (runState inp) s

/-- C10: on the success path the reported word count is the number of
whitespace-split words of the returned transcript and the character
count is its length, both computed from the final (normalized,
phrase-deduplicated) text. -/
theorem counts_match_transcript (inp : List Seg) :
    (runPipeline inp).transcript =
        sjoin (phraseDedup (splitWs (pnorm (runState inp).fullText))) ∧
    (runPipeline inp).wordCount = (splitWs (runPipeline inp).transcript).length ∧
    (runPipeline inp).characterCount = (runPipeline inp).transcript.length :=
  ⟨rfl, rfl, rfl⟩

/-- C7: the quality filter is a pure predicate of the segment text
alone: whatever the state, it rejects exactly when the trimmed text has
fewer than 2 characters or fewer than 3 distinct characters, and a
rejected segment leaves the whole pipeline state untouched. -/
theorem quality_filter_spec (st : PState) (raw : List Char) (a b : ℚ) :
    (classify st (stripWs raw) = .qualityReject ↔
      ((stripWs raw).length < 2 ∨ (stripWs raw).dedup.length < 3)) ∧
    (classify st (stripWs raw) = .qualityReject → stepSeg st ⟨raw, a, b⟩ = st) :=
  ⟨classify_quality_iff st (stripWs raw), fun h => stepSeg_of_quality st ⟨raw, a, b⟩ h⟩

theorem quality_filter_spec_witness :
    classify initState (stripWs (str "aaaa")) = .qualityReject ∧
    stepSeg initState ⟨str "aaaa", 0, 1⟩ = initState := by
  have h := quality_filter_spec initState (str "aaaa") 0 1
  have hq : classify initState (stripWs (str "aaaa")) = .qualityReject :=
    h.1.mpr (Or.inr (by decide))
  exact ⟨hq, h.2 hq⟩

/-- C8: an empty segment stream — and more generally any stream in
which no segment is accepted — yields a successful result with empty
transcript, zero word count and an empty segments list. -/
theorem empty_stream_success :
    runPipeline [] = TResult.mk true [] 0 0 [] none ∧
    (∀ inp : List Seg, (runState inp).segsList = [] →
      (runPipeline inp).success = true ∧ (runPipeline inp).transcript = [] ∧
      (runPipeline inp).wordCount = 0 ∧ (runPipeline inp).segments = []) := by
  constructor
  · rfl
  · intro inp h
    have hft : (runState inp).fullText = [] := by
      have hinv := runState_fullText_assemble inp
      rw [h] at hinv
      simpa [assemble] using hinv
    refine ⟨rfl, ?_, ?_, h⟩
    · show sjoin (phraseDedup (splitWs (pnorm (runState inp).fullText))) = []
      rw [hft]
      decide
    · show (splitWs (sjoin (phraseDedup (splitWs (pnorm (runState inp).fullText))))).length = 0
      rw [hft]
      decide

theorem empty_stream_success_witness :
    (runPipeline [⟨str "aaaa", 0, 1⟩]).success = true ∧
    (runPipeline [⟨str "aaaa", 0, 1⟩]).transcript = [] ∧
    (runPipeline [⟨str "aaaa", 0, 1⟩]).wordCount = 0 ∧
    (runPipeline [⟨str "aaaa", 0, 1⟩]).segments = [] :=
  empty_stream_success.2 [⟨str "aaaa", 0, 1⟩] (by decide)

/-- C9 as written fails on the code: a quality-filter rejection is not
counted anywhere.  The segment "aaaa" is rejected, yet the state after
the step — every counter included — is exactly the state before. -/
theorem quality_reject_not_counted :
    classify initState (stripWs (str "aaaa")) = .qualityReject ∧
    (stepSeg initState ⟨str "aaaa", 0, 1⟩).repCount = initState.repCount ∧
    (stepSeg initState ⟨str "aaaa", 0, 1⟩).segCount = initState.segCount ∧
    stepSeg initState ⟨str "aaaa", 0, 1⟩ = initState := by decide

/-- C9 amended: repetition rejections are counted in the skip counter,
quality rejections are counted nowhere (they change nothing at all),
and no rejection is ever surfaced: every run ends with success true and
no error field. -/
theorem rejections_silent (inp : List Seg) (st : PState) (s : Seg) :
    (runPipeline inp).success = true ∧ (runPipeline inp).error = none ∧
    ((classify st (stripWs s.text) = .nearDup ∨ classify st (stripWs s.text) = .exactDup) →
      (stepSeg st s).repCount = st.repCount + 1) ∧
    (classify st (stripWs s.text) = .qualityReject → stepSeg st s = st) := by
  refine ⟨rfl, rfl, fun h => ?_, stepSeg_of_quality st s⟩
  rw [stepSeg_of_reject st s h]

theorem rejections_silent_witness :
    (runPipeline []).success = true ∧ (runPipeline []).error = none ∧
    (stepSeg (runState [⟨str "hello world", 0, 1⟩]) ⟨str "hello world", 1, 2⟩).repCount =
      (runState [⟨str "hello world", 0, 1⟩]).repCount + 1 ∧
    stepSeg initState ⟨str "aaaa", 0, 1⟩ = initState := by
  have h := rejections_silent [] (runState [⟨str "hello world", 0, 1⟩])
    ⟨str "hello world", 1, 2⟩
  have h2 := rejections_silent [] initState ⟨str "aaaa", 0, 1⟩
  exact ⟨h.1, h.2.1, h.2.2.1 (Or.inl (by decide)), h2.2.2.2 (by decide)⟩

/-! ## The repetition decision (C1, C4) -/

theorem unionLen_pos (A B : List (List Char)) (hA : A ≠ []) : 0 < unionLen A B := by
  have h1 : 0 < A.length := List.length_pos.mpr hA
  have h2 : A.length ≤ unionLen A B := by
    unfold unionLen
    rw [List.length_append]
    exact Nat.le_add_right _ _
  omega

theorem ratio_gt_iff (i u : ℕ) (hu : 0 < u) :
    ((i : ℚ) / (u : ℚ) > 7 / 10) ↔ 10 * i > 7 * u := by
  rw [gt_iff_lt, div_lt_div_iff₀ (by norm_num) (by exact_mod_cast hu), mul_comm (i : ℚ) 10]
  rw [gt_iff_lt]
  exact_mod_cast Iff.rfl

/-- C1: for a quality-passed candidate with non-empty last accepted
text and non-empty token sets, the decision is: reject as near
duplicate exactly when the Jaccard ratio exceeds 0.7; if not, reject as
exact duplicate exactly when the candidate occurs in the
3-times-its-length tail window of the running text; otherwise accept.
The near check decides first and the two reasons are exclusive. -/
theorem repetition_decision (st : PState) (t : List Char)
    (hq : classify st t ≠ .qualityReject)
    (hl : st.lastText ≠ [])
    (ha : tokenSet st.lastText ≠ [])
    (hb : tokenSet t ≠ []) :
    (classify st t = .nearDup ↔ similarity st.lastText t > 7 / 10) ∧
    (classify st t ≠ .nearDup →
      (classify st t = .exactDup ↔ t <:+: takeLast (3 * t.length) st.fullText)) ∧
    (classify st t ≠ .nearDup → classify st t ≠ .exactDup → classify st t = .accept) ∧
    ¬(classify st t = .nearDup ∧ classify st t = .exactDup) := by
  have hu : 0 < unionLen (tokenSet st.lastText) (tokenSet t) := unionLen_pos _ _ ha
  have hsim : similarity st.lastText t > 7 / 10 ↔
      10 * interLen (tokenSet st.lastText) (tokenSet t) >
        7 * unionLen (tokenSet st.lastText) (tokenSet t) := by
    unfold similarity
    exact ratio_gt_iff _ _ hu
  have hnq : ¬ (t.length < 2 ∨ t.dedup.length < 3) := fun hc =>
    hq ((classify_quality_iff st t).mpr hc)
  push_neg at hnq
  have htne : t ≠ [] := by
    intro he
    rw [he] at hnq
    simp at hnq
  have h1 : (t.isEmpty || t.length < 2 : Bool) = false := by
    cases t with
    | nil => exact absurd rfl htne
    | cons c cs => simpa using hnq.1
  have hnd : nearDupCond st.lastText t = true ↔ similarity st.lastText t > 7 / 10 := by
    unfold nearDupCond
    rw [hsim]
    simp [List.isEmpty_iff, hl, ha, hb]
  have hcl : classify st t =
      (if nearDupCond st.lastText t then Outcome.nearDup
       else if exactDupCond st.fullText t then Outcome.exactDup else Outcome.accept) := by
    unfold classify
    rw [if_neg (by simp [h1]), if_neg (by omega)]
  by_cases hN : nearDupCond st.lastText t = true
  · rw [hcl, if_pos hN]
    refine ⟨iff_of_true rfl (hnd.mp hN), fun hc => absurd rfl hc, fun hc _ => absurd rfl hc, ?_⟩
    rintro ⟨-, hc⟩
    exact Outcome.noConfusion hc
  · rw [hcl, if_neg hN]
    have hsimf : ¬ similarity st.lastText t > 7 / 10 := fun hc => hN (hnd.mpr hc)
    by_cases hE : exactDupCond st.fullText t = true
    · rw [if_pos hE]
      refine ⟨iff_of_false (by simp) hsimf, fun _ => ?_, fun _ hc => absurd rfl hc, ?_⟩
      · exact iff_of_true rfl (of_decide_eq_true hE)
      · rintro ⟨hc, -⟩
        exact Outcome.noConfusion hc
    · rw [if_neg hE]
      refine ⟨iff_of_false (by simp) hsimf, fun _ => ?_, fun _ _ => rfl, ?_⟩
      · exact iff_of_false (by simp) fun hc => hE (decide_eq_true hc)
      · rintro ⟨hc, -⟩
        exact Outcome.noConfusion hc

theorem repetition_decision_witness :
    (classify (runState [⟨str "hello world", 0, 1⟩]) (str "goodbye") ≠ .qualityReject) ∧
    ((classify (runState [⟨str "hello world", 0, 1⟩]) (str "goodbye") = .nearDup ↔
        similarity (runState [⟨str "hello world", 0, 1⟩]).lastText (str "goodbye") > 7 / 10) ∧
      (classify (runState [⟨str "hello world", 0, 1⟩]) (str "goodbye") ≠ .nearDup →
        (classify (runState [⟨str "hello world", 0, 1⟩]) (str "goodbye") = .exactDup ↔
          str "goodbye" <:+:
            takeLast (3 * (str "goodbye").length)
              (runState [⟨str "hello world", 0, 1⟩]).fullText)) ∧
      (classify (runState [⟨str "hello world", 0, 1⟩]) (str "goodbye") ≠ .nearDup →
        classify (runState [⟨str "hello world", 0, 1⟩]) (str "goodbye") ≠ .exactDup →
        classify (runState [⟨str "hello world", 0, 1⟩]) (str "goodbye") = .accept) ∧
      ¬(classify (runState [⟨str "hello world", 0, 1⟩]) (str "goodbye") = .nearDup ∧
        classify (runState [⟨str "hello world", 0, 1⟩]) (str "goodbye") = .exactDup)) :=
  ⟨by decide,
    repetition_decision (runState [⟨str "hello world", 0, 1⟩]) (str "goodbye")
      (by decide) (by decide) (by decide) (by decide)⟩

/-- C4: on the stream ["hello world", "hello world", "goodbye"] the
second segment is rejected as a near duplicate (its Jaccard similarity
with the first is 1), exactly the first and third are accepted, and the
final transcript is "hello world goodbye". -/
theorem example_stream_eval :
    classify (runState [⟨str "hello world", 0, 1⟩]) (stripWs (str "hello world")) = .nearDup ∧
    similarity (str "hello world") (str "hello world") = 1 ∧
    (runState [⟨str "hello world", 0, 1⟩, ⟨str "hello world", 1, 2⟩,
      ⟨str "goodbye", 2, 3⟩]).segCount = 2 ∧
    ((runState [⟨str "hello world", 0, 1⟩, ⟨str "hello world", 1, 2⟩,
      ⟨str "goodbye", 2, 3⟩]).segsList.map Seg.text) = [str "hello world", str "goodbye"] ∧
    (runPipeline [⟨str "hello world", 0, 1⟩, ⟨str "hello world", 1, 2⟩,
      ⟨str "goodbye", 2, 3⟩]).transcript = str "hello world goodbye" := by
  refine ⟨by decide, ?_, by decide, by decide, by decide⟩
  have hi : interLen (tokenSet (str "hello world")) (tokenSet (str "hello world")) = 2 := by
    decide
  have hu : unionLen (tokenSet (str "hello world")) (tokenSet (str "hello world")) = 2 := by
    decide
  unfold similarity
  rw [hi, hu]
  norm_num

/-! ## Phrase deduplicator vs its design description (C2) -/

theorem append_space_inj (w : List Char) :
    ∀ (v x y : List Char), ' ' ∉ w → ' ' ∉ v →
      w ++ ' ' :: x = v ++ ' ' :: y → w = v ∧ x = y := by
  induction w with
  | nil =>
    intro v x y _ hv h
    cases v with
    | nil => simpa using h
    | cons d v' =>
      simp only [List.nil_append, List.cons_append, List.cons.injEq] at h
      obtain ⟨h1, -⟩ := h
      subst h1
      exact absurd (List.mem_cons_self _ _) hv
  | cons c w' ih =>
    intro v x y hw hv h
    cases v with
    | nil =>
      simp only [List.cons_append, List.nil_append, List.cons.injEq] at h
      obtain ⟨h1, -⟩ := h
      subst h1
      exact absurd (List.mem_cons_self _ _) hw
    | cons d v' =>
      simp only [List.cons_append, List.cons.injEq] at h
      obtain ⟨rfl, h2⟩ := h
      obtain ⟨rfl, rfl⟩ := ih v' x y (fun hm => hw (List.mem_cons_of_mem _ hm))
        (fun hm => hv (List.mem_cons_of_mem _ hm)) h2
      exact ⟨rfl, rfl⟩

theorem sjoin_inj : ∀ (a b : List (List Char)),
    (∀ w ∈ a, w ≠ [] ∧ ' ' ∉ w) → (∀ w ∈ b, w ≠ [] ∧ ' ' ∉ w) →
    a.length = b.length → sjoin a = sjoin b → a = b := by
  intro a
  induction a with
  | nil =>
    intro b _ _ hlen _
    cases b with
    | nil => rfl
    | cons v b' => simp at hlen
  | cons w a' ih =>
    intro b ha hb hlen hj
    cases b with
    | nil => simp at hlen
    | cons v b' =>
      cases a' with
      | nil =>
        cases b' with
        | nil => simpa [sjoin] using hj
        | cons v2 b'' => simp at hlen
      | cons w2 a'' =>
        cases b' with
        | nil => simp at hlen
        | cons v2 b'' =>
          simp only [sjoin] at hj
          obtain ⟨rfl, h2⟩ := append_space_inj w v (sjoin (w2 :: a'')) (sjoin (v2 :: b''))
            (ha w (List.mem_cons_self _ _)).2 (hb v (List.mem_cons_self _ _)).2 hj
          have htail : w2 :: a'' = v2 :: b'' := by
            refine ih (v2 :: b'') (fun u hu => ha u (List.mem_cons_of_mem _ hu))
              (fun u hu => hb u (List.mem_cons_of_mem _ hu)) ?_ h2
            simpa using hlen
          rw [htail]

theorem tryLen_eq (ws : List (List Char)) (L : Nat)
    (hws : ∀ w ∈ ws, w ≠ [] ∧ ' ' ∉ w) : tryLen ws L = tryLenSpec ws L := by
  unfold tryLen tryLenSpec
  by_cases hle : 2 * L ≤ ws.length
  · have hL : L ≤ ws.length := by omega
    have hlen1 : (ws.take L).length = L := by
      rw [List.length_take]
      omega
    have hlen2 : ((ws.drop L).take L).length = L := by
      rw [List.length_take, List.length_drop]
      omega
    congr 1
    rw [decide_eq_decide]
    constructor
    · intro hj
      exact sjoin_inj (ws.take L) ((ws.drop L).take L)
        (fun u hu => hws u (List.take_subset _ _ hu))
        (fun u hu => hws u (List.drop_subset _ _ (List.take_subset _ _ hu)))
        (by rw [hlen1, hlen2]) hj
    · intro he
      rw [he]
  · simp [hle]

theorem pdGo_eq (fuel : Nat) : ∀ ws : List (List Char),
    (∀ w ∈ ws, w ≠ [] ∧ ' ' ∉ w) → pdGo fuel ws = pdGoSpec fuel ws := by
  induction fuel with
  | zero =>
    intro ws _
    cases ws <;> rfl
  | succ n ih =>
    intro ws hws
    cases ws with
    | nil => rfl
    | cons w rest =>
      have hdropOk : ∀ k : Nat, ∀ u ∈ (w :: rest).drop k, u ≠ [] ∧ ' ' ∉ u :=
        fun k u hu => hws u (List.drop_subset _ _ hu)
      have hrestOk : ∀ u ∈ rest, u ≠ [] ∧ ' ' ∉ u :=
        fun u hu => hws u (List.mem_cons_of_mem _ hu)
      rw [pdGo, pdGoSpec, tryLen_eq _ 5 hws, tryLen_eq _ 4 hws, tryLen_eq _ 3 hws,
        tryLen_eq _ 2 hws]
      split_ifs <;>
        first
          | rw [ih ((w :: rest).drop 10) (hdropOk 10)]
          | rw [ih ((w :: rest).drop 8) (hdropOk 8)]
          | rw [ih ((w :: rest).drop 6) (hdropOk 6)]
          | rw [ih ((w :: rest).drop 4) (hdropOk 4)]
          | rw [ih rest hrestOk]

theorem splitAux_nil (cur : List Char) :
    splitAux cur [] = if cur.isEmpty then [] else [cur.reverse] := rfl

theorem splitAux_cons (cur : List Char) (c : Char) (cs : List Char) :
    splitAux cur (c :: cs) =
      if isSpace c then
        (if cur.isEmpty then splitAux [] cs else cur.reverse :: splitAux [] cs)
      else splitAux (c :: cur) cs := rfl

theorem splitAux_wordOk : ∀ (l cur : List Char), (' ' ∉ cur) →
    ∀ w ∈ splitAux cur l, w ≠ [] ∧ ' ' ∉ w := by
  intro l
  induction l with
  | nil =>
    intro cur hcur w hw
    rw [splitAux_nil] at hw
    by_cases hc : cur.isEmpty = true
    · rw [if_pos hc] at hw
      exact absurd hw (List.not_mem_nil w)
    · rw [if_neg hc] at hw
      rw [List.mem_singleton] at hw
      subst hw
      refine ⟨?_, fun hm => hcur (List.mem_reverse.mp hm)⟩
      intro he
      rw [List.reverse_eq_nil_iff] at he
      subst he
      simp at hc
  | cons c cs ih =>
    intro cur hcur w hw
    rw [splitAux_cons] at hw
    by_cases hs : isSpace c = true
    · rw [if_pos hs] at hw
      by_cases hc : cur.isEmpty = true
      · rw [if_pos hc] at hw
        exact ih [] (List.not_mem_nil ' ') w hw
      · rw [if_neg hc] at hw
        rcases List.mem_cons.mp hw with hw1 | hw2
        · subst hw1
          refine ⟨?_, fun hm => hcur (List.mem_reverse.mp hm)⟩
          intro he
          rw [List.reverse_eq_nil_iff] at he
          subst he
          simp at hc
        · exact ih [] (List.not_mem_nil ' ') w hw2
    · rw [if_neg hs] at hw
      refine ih (c :: cur) ?_ w hw
      intro hm
      rcases List.mem_cons.mp hm with h1 | h2
      · rw [← h1] at hs
        exact hs rfl
      · exact hcur h2

theorem splitWs_wordOk (l : List Char) : ∀ w ∈ splitWs l, w ≠ [] ∧ ' ' ∉ w :=
  splitAux_wordOk l [] (by simp)

/-- C2: on any word list whose words are non-empty and space-free — in
particular on every whitespace-split word sequence — the deduplicator
of lines 311-332 computes exactly the described scan (`phraseDedupSpec`:
left-to-right, phrase lengths 5, 4, 3, 2, first match emits the phrase
once and jumps both copies, otherwise one word is emitted); on
"the cat sat the cat sat on the mat" it returns
"the cat sat on the mat". -/
theorem phrase_dedup_design :
    (∀ ws : List (List Char), (∀ w ∈ ws, w ≠ [] ∧ ' ' ∉ w) →
      phraseDedup ws = phraseDedupSpec ws) ∧
    (∀ txt : List Char, phraseDedup (splitWs txt) = phraseDedupSpec (splitWs txt)) ∧
    sjoin (phraseDedup (splitWs (str "the cat sat the cat sat on the mat"))) =
      str "the cat sat on the mat" :=
  ⟨fun ws h => pdGo_eq ws.length ws h,
    fun txt => pdGo_eq (splitWs txt).length (splitWs txt) (splitWs_wordOk txt),
    by decide⟩

theorem phrase_dedup_design_witness :
    (∀ w ∈ splitWs (str "the cat sat the cat sat on the mat"), w ≠ [] ∧ ' ' ∉ w) ∧
    phraseDedup (splitWs (str "the cat sat the cat sat on the mat")) =
      phraseDedupSpec (splitWs (str "the cat sat the cat sat on the mat")) :=
  ⟨by decide, phrase_dedup_design.1 _ (by decide)⟩

/-! ## Idempotence of the punctuation normalizer (C3)

The proof tracks three shape invariants through the stages:
`okA` (whitespace characters are single blanks, never doubled),
`okB` (additionally no blank is trailing), and `goodB` (additionally no
blank precedes punctuation).  `ruleB` output is `goodB`; `ruleC` output
of a `goodB` string is `okB` with the same head; and on `goodB` input
`ruleB` exactly undoes the blanks `ruleC` inserted before punctuation,
so the `ruleC`-`ruleB`-`ruleC` round trip is `ruleC`. -/

@[simp] theorem isSpace_blank : isSpace ' ' = true := rfl

@[simp] theorem isPunctN_blank : isPunctN ' ' = false := rfl

theorem punct_not_space {c : Char} (h : isPunctN c = true) : isSpace c = false := by
  have hm : c ∈ punctN := by
    unfold isPunctN at h
    exact of_decide_eq_true h
  fin_cases hm <;> rfl

theorem okA_cons (c : Char) (cs : List Char) :
    okA (c :: cs) = ((!isSpace c || (c == ' ' && !nextIsSpace cs)) && okA cs) := rfl

theorem okB_cons (c : Char) (cs : List Char) :
    okB (c :: cs) = ((!isSpace c || (c == ' ' && headNonSpace cs)) && okB cs) := rfl

theorem goodB_cons (c : Char) (cs : List Char) :
    goodB (c :: cs) = ((!isSpace c || (c == ' ' && headNSP cs)) && goodB cs) := rfl

theorem trimR_cons_eq (c : Char) (cs : List Char) :
    trimR (c :: cs) = (match trimR cs with
      | [] => if isSpace c then [] else [c]
      | d :: r => c :: d :: r) := rfl

theorem okA_tail {c : Char} {cs : List Char} (h : okA (c :: cs) = true) : okA cs = true := by
  simp only [okA, Bool.and_eq_true] at h
  exact h.2

theorem okB_tail {c : Char} {cs : List Char} (h : okB (c :: cs) = true) : okB cs = true := by
  simp only [okB, Bool.and_eq_true] at h
  exact h.2

theorem goodB_tail {c : Char} {cs : List Char} (h : goodB (c :: cs) = true) :
    goodB cs = true := by
  simp only [goodB, Bool.and_eq_true] at h
  exact h.2

theorem okA_space {c : Char} {cs : List Char} (h : okA (c :: cs) = true)
    (hs : isSpace c = true) : c = ' ' ∧ nextIsSpace cs = false := by
  simp only [okA, Bool.and_eq_true, Bool.or_eq_true, Bool.not_eq_true', beq_iff_eq] at h
  rcases h.1 with h1 | h1
  · simp [hs] at h1
  · exact h1

theorem okB_space {c : Char} {cs : List Char} (h : okB (c :: cs) = true)
    (hs : isSpace c = true) : c = ' ' ∧ headNonSpace cs = true := by
  simp only [okB, Bool.and_eq_true, Bool.or_eq_true, Bool.not_eq_true', beq_iff_eq] at h
  rcases h.1 with h1 | h1
  · simp [hs] at h1
  · exact ⟨h1.1, h1.2⟩

theorem goodB_space {c : Char} {cs : List Char} (h : goodB (c :: cs) = true)
    (hs : isSpace c = true) : c = ' ' ∧ headNSP cs = true := by
  simp only [goodB, Bool.and_eq_true, Bool.or_eq_true, Bool.not_eq_true', beq_iff_eq] at h
  rcases h.1 with h1 | h1
  · simp [hs] at h1
  · exact ⟨h1.1, h1.2⟩

theorem headNSP_elim {l : List Char} (h : headNSP l = true) :
    ∃ d l₂, l = d :: l₂ ∧ isSpace d = false ∧ isPunctN d = false := by
  cases l with
  | nil => simp [headNSP] at h
  | cons d l₂ =>
    simp only [headNSP, Bool.and_eq_true, Bool.not_eq_true'] at h
    exact ⟨d, l₂, rfl, h.1, h.2⟩

theorem goodB_okB : ∀ l : List Char, goodB l = true → okB l = true := by
  intro l
  induction l with
  | nil => intro h; exact h
  | cons c cs ih =>
    intro h
    have h2 := ih (goodB_tail h)
    cases hs : isSpace c with
    | false =>
      rw [okB_cons, Bool.and_eq_true]
      exact ⟨by simp [hs], h2⟩
    | true =>
      obtain ⟨rfl, hnsp⟩ := goodB_space h hs
      obtain ⟨d, l₂, rfl, hd, -⟩ := headNSP_elim hnsp
      rw [okB_cons, Bool.and_eq_true]
      exact ⟨by simp [headNonSpace, hd], h2⟩

theorem okB_okA : ∀ l : List Char, okB l = true → okA l = true := by
  intro l
  induction l with
  | nil => intro h; exact h
  | cons c cs ih =>
    intro h
    have h2 := ih (okB_tail h)
    cases hs : isSpace c with
    | false =>
      rw [okA_cons, Bool.and_eq_true]
      exact ⟨by simp [hs], h2⟩
    | true =>
      obtain ⟨rfl, hns⟩ := okB_space h hs
      cases cs with
      | nil => simp [headNonSpace] at hns
      | cons d r =>
        simp only [headNonSpace, Bool.not_eq_true'] at hns
        rw [okA_cons, Bool.and_eq_true]
        exact ⟨by simp [nextIsSpace, hns], h2⟩

theorem okB_noTrail : ∀ l : List Char, okB l = true → noTrailSpace l = true := by
  intro l
  induction l with
  | nil => intro h; exact h
  | cons c cs ih =>
    intro h
    cases cs with
    | nil =>
      cases hs : isSpace c with
      | false => simp [noTrailSpace, hs]
      | true =>
        obtain ⟨-, hns⟩ := okB_space h hs
        simp [headNonSpace] at hns
    | cons d r =>
      have : noTrailSpace (c :: d :: r) = noTrailSpace (d :: r) := rfl
      rw [this]
      exact ih (okB_tail h)

/-! ### Stage 1: `collapseWs` output is `okA` -/

theorem collapseWs_cons_nonspace {c : Char} (cs : List Char) (h : isSpace c = false) :
    collapseWs (c :: cs) = c :: collapseWs cs := by
  simp [collapseWs, h]

theorem nextIsSpace_collapseWs (cs : List Char) (h : nextIsSpace cs = false) :
    nextIsSpace (collapseWs cs) = false := by
  cases cs with
  | nil => rfl
  | cons d cs' =>
    have hd : isSpace d = false := by simpa [nextIsSpace] using h
    rw [collapseWs_cons_nonspace cs' hd]
    simpa [nextIsSpace] using hd

theorem okA_collapseWs : ∀ l : List Char, okA (collapseWs l) = true := by
  intro l
  induction l with
  | nil => rfl
  | cons c cs ih =>
    cases hs : isSpace c with
    | false =>
      rw [collapseWs_cons_nonspace cs hs]
      simp [okA, hs, ih]
    | true =>
      cases hn : nextIsSpace cs with
      | true => simpa [collapseWs, hs, hn] using ih
      | false =>
        have h2 := nextIsSpace_collapseWs cs hn
        simp [collapseWs, hs, hn, okA, h2, ih]

theorem collapse_id : ∀ l : List Char, okA l = true → collapseWs l = l := by
  intro l
  induction l with
  | nil => intro _; rfl
  | cons c cs ih =>
    intro h
    have h2 := ih (okA_tail h)
    cases hs : isSpace c with
    | false => rw [collapseWs_cons_nonspace cs hs, h2]
    | true =>
      obtain ⟨rfl, hn⟩ := okA_space h hs
      simp [collapseWs, hn, h2]

/-! ### Stage 2: trimming preserves `okA`, gives `okB` and clean ends -/

theorem okA_trimL : ∀ l : List Char, okA l = true → okA (trimL l) = true := by
  intro l
  induction l with
  | nil => intro h; exact h
  | cons c cs ih =>
    intro h
    cases hs : isSpace c with
    | false =>
      rw [trimL, List.dropWhile_cons]
      simp only [hs, Bool.false_eq_true, if_false]
      exact h
    | true =>
      rw [trimL, List.dropWhile_cons]
      simp only [hs, if_true]
      exact ih (okA_tail h)

theorem noLead_trimL : ∀ l : List Char, noLeadSpace (trimL l) = true := by
  intro l
  induction l with
  | nil => rfl
  | cons c cs ih =>
    cases hs : isSpace c with
    | false =>
      rw [trimL, List.dropWhile_cons]
      simp only [hs, Bool.false_eq_true, if_false]
      simp [noLeadSpace, hs]
    | true =>
      rw [trimL, List.dropWhile_cons]
      simp only [hs, if_true]
      exact ih

theorem trimR_shape (c : Char) (cs : List Char) :
    trimR (c :: cs) = [] ∨ ∃ r, trimR (c :: cs) = c :: r := by
  cases h : trimR cs with
  | nil =>
    cases hs : isSpace c with
    | true =>
      left
      simp [trimR, h, hs]
    | false =>
      right
      exact ⟨[], by simp [trimR, h, hs]⟩
  | cons d r =>
    right
    exact ⟨d :: r, by simp [trimR, h]⟩

theorem okA_trimR : ∀ l : List Char, okA l = true → okA (trimR l) = true := by
  intro l
  induction l with
  | nil => intro h; exact h
  | cons c cs ih =>
    intro h
    have ihr := ih (okA_tail h)
    cases hr : trimR cs with
    | nil =>
      cases hs : isSpace c with
      | true => simp [trimR, hr, hs, okA]
      | false => simp [trimR, hr, hs, okA]
    | cons d r =>
      have hstep : trimR (c :: cs) = c :: d :: r := by simp [trimR, hr]
      rw [hstep]
      have hdr : okA (d :: r) = true := by rw [← hr]; exact ihr
      cases hs : isSpace c with
      | false =>
        rw [okA_cons, Bool.and_eq_true]
        exact ⟨by simp [hs], hdr⟩
      | true =>
        obtain ⟨rfl, hn⟩ := okA_space h hs
        cases cs with
        | nil => simp [trimR] at hr
        | cons e cs' =>
          have he : isSpace e = false := by simpa [nextIsSpace] using hn
          rcases trimR_shape e cs' with h0 | ⟨r', hr'⟩
          · rw [h0] at hr
            cases hr
          · rw [hr'] at hr
            obtain ⟨rfl, rfl⟩ : e = d ∧ r' = r := by
              injection hr with h1 h2
              exact ⟨h1, h2⟩
            rw [okA_cons, Bool.and_eq_true]
            exact ⟨by simp [nextIsSpace, he], hdr⟩

theorem noTrail_trimR : ∀ l : List Char, noTrailSpace (trimR l) = true := by
  intro l
  induction l with
  | nil => rfl
  | cons c cs ih =>
    cases hr : trimR cs with
    | nil =>
      cases hs : isSpace c with
      | true => simp [trimR, hr, hs, noTrailSpace]
      | false => simp [trimR, hr, hs, noTrailSpace]
    | cons d r =>
      have hstep : trimR (c :: cs) = c :: d :: r := by simp [trimR, hr]
      rw [hstep]
      have heq : noTrailSpace (c :: d :: r) = noTrailSpace (d :: r) := rfl
      rw [heq, ← hr]
      exact ih

theorem noLead_trimR : ∀ l : List Char, noLeadSpace l = true → noLeadSpace (trimR l) = true := by
  intro l
  cases l with
  | nil => intro h; exact h
  | cons c cs =>
    intro h
    rcases trimR_shape c cs with h0 | ⟨r, hr⟩
    · rw [h0]; rfl
    · rw [hr]
      simpa [noLeadSpace] using h

theorem okA_noTrail_okB : ∀ l : List Char, okA l = true → noTrailSpace l = true →
    okB l = true := by
  intro l
  induction l with
  | nil => intro h _; exact h
  | cons c cs ih =>
    intro h ht
    have htcs : noTrailSpace cs = true := by
      cases cs with
      | nil => rfl
      | cons d r => exact ht
    have h2 := ih (okA_tail h) htcs
    cases hs : isSpace c with
    | false =>
      rw [okB_cons, Bool.and_eq_true]
      exact ⟨by simp [hs], h2⟩
    | true =>
      obtain ⟨rfl, hn⟩ := okA_space h hs
      cases cs with
      | nil => simp [noTrailSpace] at ht
      | cons d r =>
        have hd : isSpace d = false := by simpa [nextIsSpace] using hn
        rw [okB_cons, Bool.and_eq_true]
        exact ⟨by simp [headNonSpace, hd], h2⟩

theorem trimL_id (l : List Char) (h : noLeadSpace l = true) : trimL l = l := by
  cases l with
  | nil => rfl
  | cons c cs =>
    rw [trimL, List.dropWhile_cons]
    simp only [noLeadSpace, Bool.not_eq_true'] at h
    simp [h]

theorem trimR_id : ∀ l : List Char, noTrailSpace l = true → trimR l = l := by
  intro l
  induction l with
  | nil => intro _; rfl
  | cons c cs ih =>
    intro h
    cases cs with
    | nil =>
      simp only [noTrailSpace, Bool.not_eq_true'] at h
      simp [trimR, h]
    | cons d r =>
      have heq : noTrailSpace (c :: d :: r) = noTrailSpace (d :: r) := rfl
      rw [heq] at h
      have hdr := ih h
      rw [trimR_cons_eq, hdr]

theorem stripWs_id (l : List Char) (h1 : noLeadSpace l = true) (h2 : noTrailSpace l = true) :
    stripWs l = l := by
  unfold stripWs
  rw [trimL_id l h1, trimR_id l h2]

/-! ### Stage 3: `ruleB` output is `goodB` -/

theorem ruleB_cons_nonspace {c : Char} (cs : List Char) (h : isSpace c = false) :
    ruleB (c :: cs) = c :: ruleB cs := by
  simp [ruleB, h]

theorem headPunctAfterWs_cons_nonspace {d : Char} (cs : List Char) (hd : isSpace d = false) :
    headPunctAfterWs (d :: cs) = isPunctN d := by
  rw [headPunctAfterWs, List.dropWhile_cons]
  simp [hd]

theorem okB_ruleB_good : ∀ l : List Char, okB l = true → goodB (ruleB l) = true := by
  intro l
  induction l with
  | nil => intro h; exact h
  | cons c cs ih =>
    intro h
    have h2 := ih (okB_tail h)
    cases hg : (isSpace c && headPunctAfterWs cs) with
    | true =>
      simp only [ruleB, hg, if_true]
      exact h2
    | false =>
      simp only [ruleB, hg, Bool.false_eq_true, if_false]
      cases hs : isSpace c with
      | false =>
        rw [goodB_cons, Bool.and_eq_true]
        exact ⟨by simp [hs], h2⟩
      | true =>
        obtain ⟨rfl, hns⟩ := okB_space h hs
        cases cs with
        | nil => simp [headNonSpace] at hns
        | cons d cs₂ =>
          simp only [headNonSpace, Bool.not_eq_true'] at hns
          have hpd : isPunctN d = false := by
            rw [hs] at hg
            simpa [headPunctAfterWs_cons_nonspace cs₂ hns] using hg
          rw [ruleB_cons_nonspace cs₂ hns]
          rw [goodB_cons, Bool.and_eq_true]
          constructor
          · simp [headNSP, hns, hpd]
          · rw [← ruleB_cons_nonspace cs₂ hns]
            exact h2

theorem noLead_ruleB {l : List Char} (h : noLeadSpace l = true) :
    noLeadSpace (ruleB l) = true := by
  cases l with
  | nil => exact h
  | cons c cs =>
    simp only [noLeadSpace, Bool.not_eq_true'] at h
    rw [ruleB_cons_nonspace cs h]
    simp [noLeadSpace, h]

/-! ### Stage 4: `ruleC` equations and shapes -/

theorem ruleC_cons_nonpunct {c : Char} (cs : List Char) (h : isPunctN c = false) :
    ruleC (c :: cs) = c :: ruleC cs := by
  cases cs with
  | nil => rfl
  | cons d cs' => simp [ruleC, h]

theorem ruleC_cons_cons_match {c d : Char} (cs : List Char)
    (h : (isPunctN c && !isSpace d) = true) :
    ruleC (c :: d :: cs) = c :: ' ' :: d :: ruleC cs := by
  simp [ruleC, h]

theorem ruleC_cons_cons_nomatch {c d : Char} (cs : List Char)
    (h : (isPunctN c && !isSpace d) = false) :
    ruleC (c :: d :: cs) = c :: ruleC (d :: cs) := by
  simp [ruleC, h]

theorem ruleC_cons_shape (c : Char) (cs : List Char) : ∃ r, ruleC (c :: cs) = c :: r := by
  cases cs with
  | nil => exact ⟨[], rfl⟩
  | cons d cs' =>
    cases h : (isPunctN c && !isSpace d) with
    | true => exact ⟨' ' :: d :: ruleC cs', ruleC_cons_cons_match cs' h⟩
    | false => exact ⟨ruleC (d :: cs'), ruleC_cons_cons_nomatch cs' h⟩

theorem noLead_ruleC {l : List Char} (h : noLeadSpace l = true) :
    noLeadSpace (ruleC l) = true := by
  cases l with
  | nil => exact h
  | cons c cs =>
    obtain ⟨r, hr⟩ := ruleC_cons_shape c cs
    rw [hr]
    exact h

theorem ruleB_cons_space_nonpunct {d : Char} (r : List Char)
    (hd : isSpace d = false) (hp : isPunctN d = false) :
    ruleB (' ' :: d :: r) = ' ' :: ruleB (d :: r) := by
  have hg : (isSpace ' ' && headPunctAfterWs (d :: r)) = false := by
    simp [headPunctAfterWs_cons_nonspace r hd, hp]
  simp only [ruleB, hg, Bool.false_eq_true, if_false]

theorem ruleB_cons_eq (c : Char) (cs : List Char) :
    ruleB (c :: cs) =
      (if (isSpace c && headPunctAfterWs cs) = true then ruleB cs else c :: ruleB cs) := rfl

theorem ruleB_cons_space_punct {d : Char} (r : List Char)
    (hd : isSpace d = false) (hp : isPunctN d = true) :
    ruleB (' ' :: d :: r) = d :: ruleB r := by
  have hg : (isSpace ' ' && headPunctAfterWs (d :: r)) = true := by
    simp [headPunctAfterWs_cons_nonspace r hd, hp]
  rw [ruleB_cons_eq, if_pos hg, ruleB_cons_nonspace r hd]

/-! ### Stage 5: `ruleC` of a `goodB` string is `okB`, and the
`ruleC`-`ruleB`-`ruleC` round trip -/

theorem okB_ruleC_aux : ∀ (n : Nat) (l : List Char), l.length ≤ n → goodB l = true →
    okB (ruleC l) = true := by
  intro n
  induction n with
  | zero =>
    intro l hn _
    cases l with
    | nil => rfl
    | cons c cs => simp at hn
  | succ n ih =>
    intro l hn hg
    cases l with
    | nil => rfl
    | cons c l₁ =>
      have hg1 : goodB l₁ = true := goodB_tail hg
      have hn1 : l₁.length ≤ n := by simp only [List.length_cons] at hn; omega
      cases hs : isSpace c with
      | true =>
        obtain ⟨rfl, hnsp⟩ := goodB_space hg hs
        obtain ⟨d, l₂, rfl, hd, hp⟩ := headNSP_elim hnsp
        rw [ruleC_cons_cons_nomatch l₂ (by simp)]
        obtain ⟨r, hr⟩ := ruleC_cons_shape d l₂
        rw [okB_cons, Bool.and_eq_true]
        constructor
        · rw [hr]
          simp [headNonSpace, hd]
        · exact ih (d :: l₂) hn1 hg1
      | false =>
        cases hp : isPunctN c with
        | false =>
          rw [ruleC_cons_nonpunct l₁ hp, okB_cons, Bool.and_eq_true]
          exact ⟨by simp [hs], ih l₁ hn1 hg1⟩
        | true =>
          cases l₁ with
          | nil => simp [ruleC, okB, hs]
          | cons d l₂ =>
            have hg2 : goodB l₂ = true := goodB_tail hg1
            cases hd : isSpace d with
            | true =>
              obtain ⟨rfl, hnsp⟩ := goodB_space hg1 hd
              obtain ⟨e, l₃, rfl, he, hpe⟩ := headNSP_elim hnsp
              have hne : (e :: l₃).length ≤ n := by
                simp only [List.length_cons] at hn1 ⊢
                omega
              rw [ruleC_cons_cons_nomatch _ (by simp), ruleC_cons_nonpunct _ isPunctN_blank]
              obtain ⟨r, hr⟩ := ruleC_cons_shape e l₃
              rw [okB_cons, Bool.and_eq_true]
              refine ⟨by simp [hs], ?_⟩
              rw [okB_cons, Bool.and_eq_true]
              refine ⟨?_, ih (e :: l₃) hne hg2⟩
              rw [hr]
              simp [headNonSpace, he]
            | false =>
              have hn2 : l₂.length ≤ n := by
                simp only [List.length_cons] at hn1
                omega
              rw [ruleC_cons_cons_match l₂ (by simp [hp, hd])]
              rw [okB_cons, Bool.and_eq_true]
              refine ⟨by simp [hs], ?_⟩
              rw [okB_cons, Bool.and_eq_true]
              refine ⟨by simp [headNonSpace, hd], ?_⟩
              rw [okB_cons, Bool.and_eq_true]
              exact ⟨by simp [hd], ih l₂ hn2 hg2⟩

theorem okB_ruleC (l : List Char) (h : goodB l = true) : okB (ruleC l) = true :=
  okB_ruleC_aux l.length l (le_refl _) h

theorem ruleC_roundtrip_aux : ∀ (n : Nat) (l : List Char), l.length ≤ n → goodB l = true →
    ruleC (ruleB (ruleC l)) = ruleC l := by
  intro n
  induction n with
  | zero =>
    intro l hn _
    cases l with
    | nil => rfl
    | cons c cs => simp at hn
  | succ n ih =>
    intro l hn hg
    cases l with
    | nil => rfl
    | cons c l₁ =>
      have hg1 : goodB l₁ = true := goodB_tail hg
      have hn1 : l₁.length ≤ n := by simp only [List.length_cons] at hn; omega
      cases hs : isSpace c with
      | true =>
        obtain ⟨rfl, hnsp⟩ := goodB_space hg hs
        obtain ⟨d, l₂, rfl, hd, hp⟩ := headNSP_elim hnsp
        obtain ⟨r, hr⟩ := ruleC_cons_shape d l₂
        rw [ruleC_cons_nonpunct (d :: l₂) isPunctN_blank, hr,
          ruleB_cons_space_nonpunct r hd hp, ← hr,
          ruleC_cons_nonpunct _ isPunctN_blank, ih (d :: l₂) hn1 hg1]
      | false =>
        cases hp : isPunctN c with
        | false =>
          rw [ruleC_cons_nonpunct l₁ hp, ruleB_cons_nonspace (ruleC l₁) hs,
            ruleC_cons_nonpunct _ hp, ih l₁ hn1 hg1]
        | true =>
          cases l₁ with
          | nil =>
            have h1 : ruleB [c] = [c] := by
              rw [ruleB_cons_eq]
              simp only [hs, Bool.false_and, Bool.false_eq_true, if_false]
              rfl
            have h2 : ruleC [c] = [c] := rfl
            rw [h2, h1, h2]
          | cons d l₂ =>
            have hg2 : goodB l₂ = true := goodB_tail hg1
            cases hd : isSpace d with
            | true =>
              obtain ⟨rfl, hnsp⟩ := goodB_space hg1 hd
              obtain ⟨e, l₃, rfl, he, hpe⟩ := headNSP_elim hnsp
              have hne : (e :: l₃).length ≤ n := by
                simp only [List.length_cons] at hn1 ⊢
                omega
              obtain ⟨r, hr⟩ := ruleC_cons_shape e l₃
              rw [ruleC_cons_cons_nomatch _ (by simp), ruleC_cons_nonpunct _ isPunctN_blank,
                hr, ruleB_cons_nonspace _ hs, ruleB_cons_space_nonpunct r he hpe, ← hr,
                ruleC_cons_cons_nomatch _ (by simp), ruleC_cons_nonpunct _ isPunctN_blank,
                ih (e :: l₃) hne hg2]
            | false =>
              have hn2 : l₂.length ≤ n := by
                simp only [List.length_cons] at hn1
                omega
              rw [ruleC_cons_cons_match l₂ (by simp [hp, hd]), ruleB_cons_nonspace _ hs]
              cases hq : isPunctN d with
              | true =>
                rw [ruleB_cons_space_punct _ hd hq,
                  ruleC_cons_cons_match _ (by simp [hp, hd]), ih l₂ hn2 hg2]
              | false =>
                rw [ruleB_cons_space_nonpunct _ hd hq, ruleB_cons_nonspace _ hd,
                  ruleC_cons_cons_nomatch _ (by simp), ruleC_cons_nonpunct _ isPunctN_blank,
                  ruleC_cons_nonpunct _ hq, ih l₂ hn2 hg2]

theorem ruleC_roundtrip (l : List Char) (h : goodB l = true) :
    ruleC (ruleB (ruleC l)) = ruleC l :=
  ruleC_roundtrip_aux l.length l (le_refl _) h

/-- C3: the punctuation normalizer (whitespace collapse and trim, strip
whitespace before punctuation, add a space after punctuation not
followed by whitespace, in that order) is idempotent: applying it twice
gives the same string as applying it once, for every input string. -/
theorem pnorm_idempotent (l : List Char) : pnorm (pnorm l) = pnorm l := by
  have h1 : okA (collapseWs l) = true := okA_collapseWs l
  have h2 : okA (stripWs (collapseWs l)) = true := okA_trimR _ (okA_trimL _ h1)
  have h3 : noTrailSpace (stripWs (collapseWs l)) = true := noTrail_trimR _
  have h4 : okB (stripWs (collapseWs l)) = true := okA_noTrail_okB _ h2 h3
  have h5 : noLeadSpace (stripWs (collapseWs l)) = true := noLead_trimR _ (noLead_trimL _)
  have h6 : goodB (ruleB (stripWs (collapseWs l))) = true := okB_ruleB_good _ h4
  have h7 : noLeadSpace (ruleB (stripWs (collapseWs l))) = true := noLead_ruleB h5
  have hyB : okB (ruleC (ruleB (stripWs (collapseWs l)))) = true := okB_ruleC _ h6
  have hyA : okA (ruleC (ruleB (stripWs (collapseWs l)))) = true := okB_okA _ hyB
  have hyT : noTrailSpace (ruleC (ruleB (stripWs (collapseWs l)))) = true := okB_noTrail _ hyB
  have hyL : noLeadSpace (ruleC (ruleB (stripWs (collapseWs l)))) = true := noLead_ruleC h7
  show ruleC (ruleB (stripWs (collapseWs (ruleC (ruleB (stripWs (collapseWs l))))))) =
      ruleC (ruleB (stripWs (collapseWs l)))
  rw [collapse_id _ hyA, stripWs_id _ hyL hyT]
  exact ruleC_roundtrip _ h6

/-! ## Evaluation checks of the embedding on the worked examples of the
design text -/

theorem sanity_stripWs : stripWs (str "  hello  ") = str "hello" := by decide

theorem sanity_splitWs : splitWs (str " a bc  d ") = [str "a", str "bc", str "d"] := by decide

theorem sanity_pnorm : pnorm (str "hello , world !") = str "hello, world!" := by decide
